import Mathlib

/-!
Shallow embedding of `src/3.vga-text-mode/src/vga_buffer.rs`: the VGA
text-mode display surface (a 25×80 grid of character/attribute cells)
and the line writer built on it (`Writer::write_byte`,
`Writer::write_string`, `Writer::new_line`, `Writer::clear_row`,
`ColorCode::new`, the `Color` enumeration and the `WRITER` singleton's
initial state).

Machine bytes (`u8`) are modelled as `Nat` values below 256; the
hardware buffer `[[Volatile<ScreenChar>; 80]; 25]` is modelled as a
total function `Nat → Nat → ScreenChar`, with the source's loops over
rows/columns rendered as folds over `List.range` so every individual
volatile write appears as one functional update.
-/

set_option maxRecDepth 8000

namespace VgaBuffer

/-- The 16-value `Color` enum of the source (`#[repr(u8)]`). -/
inductive Color where
  | Black | Blue | Green | Cyan | Red | Magenta | Brown | LightGray
  | DarkGray | LightBlue | LightGreen | LightCyan | LightRed | Pink
  | Yellow | White
deriving DecidableEq, Repr

/-- The `u8` discriminant of each `Color` variant (`Color as u8`). -/
def Color.toU8 : Color → Nat
  | .Black => 0
  | .Blue => 1
  | .Green => 2
  | .Cyan => 3
  | .Red => 4
  | .Magenta => 5
  | .Brown => 6
  | .LightGray => 7
  | .DarkGray => 8
  | .LightBlue => 9
  | .LightGreen => 10
  | .LightCyan => 11
  | .LightRed => 12
  | .Pink => 13
  | .Yellow => 14
  | .White => 15

/-- `ColorCode`: a `#[repr(transparent)]` wrapper around one `u8`. -/
structure ColorCode where
  val : Nat
deriving DecidableEq, Repr

/-- `ColorCode::new(background, foreground)`:
`(background as u8) << 4 | (foreground as u8)` in `u8` arithmetic. -/
def ColorCode.new (background foreground : Color) : ColorCode :=
  ⟨(background.toU8 <<< 4 ||| foreground.toU8) % 256⟩

/-- `ScreenChar`: one cell, a character byte plus a `ColorCode` byte. -/
structure ScreenChar where
  ascii_character : Nat
  color_code : ColorCode
deriving DecidableEq, Repr

def BUFFER_HEIGHT : Nat := 25
def BUFFER_WIDTH : Nat := 80

/-- The VGA buffer `chars` array, as a total function on (row, col). -/
def Grid := Nat → Nat → ScreenChar

/-- One volatile write `chars[r][c].write(v)` as a functional update. -/
def writeCell (g : Grid) (r c : Nat) (v : ScreenChar) : Grid :=
  fun r' c' => if r' = r ∧ c' = c then v else g r' c'

/-- `Writer`: current column, current color code, and the buffer. -/
structure Writer where
  column_position : Nat
  color_code : ColorCode
  chars : Grid

/-- The blank cell written by `clear_row`:
`ScreenChar { ascii_character: b' ', color_code: self.color_code }`. -/
def blank (cc : ColorCode) : ScreenChar := ⟨0x20, cc⟩

/-- `Writer::clear_row(row)`: `for col in 0..BUFFER_WIDTH` write the
blank cell at `(row, col)`. -/
def Writer.clear_row (w : Writer) (row : Nat) : Writer :=
  { w with chars :=
      ((List.range BUFFER_WIDTH).foldl
        (fun g col => writeCell g row col (blank w.color_code)) w.chars) }

/-- `Writer::new_line()`: `for row in 1..BUFFER_HEIGHT { for col in
0..BUFFER_WIDTH { chars[row-1][col].write(chars[row][col].read()) } }`,
then `clear_row(BUFFER_HEIGHT - 1)`, then `column_position = 0`.
The outer loop variable `row` is represented as `i + 1` for
`i ∈ List.range (BUFFER_HEIGHT - 1)`; each read happens against the
buffer state current at that point of the loop, as in the source. -/
def Writer.new_line (w : Writer) : Writer :=
  let g :=
    (List.range (BUFFER_HEIGHT - 1)).foldl
      (fun g i =>
        (List.range BUFFER_WIDTH).foldl
          (fun g' col => writeCell g' i col (g' (i + 1) col)) g)
      w.chars
  let w' := { w with chars := g }
  let w'' := w'.clear_row (BUFFER_HEIGHT - 1)
  { w'' with column_position := 0 }

/-- `Writer::write_byte(byte)`: on `b'\n'` call `new_line`; otherwise
wrap (`new_line`) if `column_position >= BUFFER_WIDTH`, then write
`ScreenChar { ascii_character: byte, color_code }` at
`(BUFFER_HEIGHT - 1, column_position)` and increment the column. -/
def Writer.write_byte (w : Writer) (byte : Nat) : Writer :=
  if byte = 0x0a then w.new_line
  else
    let w1 := if w.column_position ≥ BUFFER_WIDTH then w.new_line else w
    let row := BUFFER_HEIGHT - 1
    let col := w1.column_position
    let color_code := w1.color_code
    { w1 with
      chars := writeCell w1.chars row col ⟨byte, color_code⟩
      column_position := w1.column_position + 1 }

/-- `Writer::write_string(s)`: for each byte in order, forward bytes
matching `0x20..=0x7e | b'\n'` to `write_byte` unchanged and forward
`0xfe` for every other byte. -/
def Writer.write_string (w : Writer) (s : List Nat) : Writer :=
  s.foldl
    (fun w byte =>
      if (0x20 ≤ byte ∧ byte ≤ 0x7e) ∨ byte = 0x0a then w.write_byte byte
      else w.write_byte 0xfe)
    w

/-- The `WRITER` singleton's initial state: `column_position: 0`,
`color_code: ColorCode::new(Color::Black, Color::Yellow)`, and the
buffer mapped at `0xb8000`, whose initial contents are not specified
(hardware memory), hence a parameter. -/
def initialWriter (g : Grid) : Writer :=
  { column_position := 0
    color_code := ColorCode.new Color.Black Color.Yellow
    chars := g }

/-- The public operations available on the `WRITER` singleton. -/
inductive Op where
  | writeByte (b : Nat)
  | writeString (s : List Nat)
  | newLine

/-- Apply one public operation. -/
def applyOp (w : Writer) : Op → Writer
  | .writeByte b => w.write_byte b
  | .writeString s => w.write_string s
  | .newLine => w.new_line

/-- Run a sequence of public operations. -/
def execOps (w : Writer) (ops : List Op) : Writer :=
  ops.foldl applyOp w

/-- The sanitation applied per byte by `write_string`'s match. -/
def sanitize (b : Nat) : Nat :=
  if (0x20 ≤ b ∧ b ≤ 0x7e) ∨ b = 0x0a then b else 0xfe

/-- The glyphs `write_string` can ever deposit in a cell: printable
ASCII (which includes the blank `0x20`) or the placeholder `0xfe`. -/
def supportedGlyph (b : Nat) : Prop :=
  (0x20 ≤ b ∧ b ≤ 0x7e) ∨ b = 0xfe

instance : DecidablePred supportedGlyph := fun b => by
  unfold supportedGlyph; infer_instance

/-- Every cell of the buffer holds a supported glyph. -/
def GridOK (w : Writer) : Prop :=
  ∀ r c : Nat, supportedGlyph ((w.chars r c).ascii_character)

/-- The (row, col) pair of every volatile access (read or write) made
by `Writer::new_line`, in program order: for each `row` in
`1..BUFFER_HEIGHT` (written `i + 1` below) and each `col` in
`0..BUFFER_WIDTH`, the read at `(row, col)` then the write at
`(row - 1, col)`; then `clear_row`'s writes at
`(BUFFER_HEIGHT - 1, col)` for `col` in `0..BUFFER_WIDTH`. -/
def new_line_accesses : List (Nat × Nat) :=
  ((List.range (BUFFER_HEIGHT - 1)).flatMap fun i =>
    (List.range BUFFER_WIDTH).flatMap fun col => [(i + 1, col), (i, col)])
  ++ ((List.range BUFFER_WIDTH).map fun col => (BUFFER_HEIGHT - 1, col))

/-- The (row, col) pair of every volatile access made by
`Writer::write_byte`, in program order, mirroring its control flow:
the `new_line` accesses on a newline byte or on wrap, then the single
character write at `(BUFFER_HEIGHT - 1, column_position)` of the
(possibly wrapped) writer. -/
def write_byte_accesses (w : Writer) (byte : Nat) : List (Nat × Nat) :=
  if byte = 0x0a then new_line_accesses
  else
    let pre := if w.column_position ≥ BUFFER_WIDTH then new_line_accesses else []
    let w1 := if w.column_position ≥ BUFFER_WIDTH then w.new_line else w
    pre ++ [(BUFFER_HEIGHT - 1, w1.column_position)]

/-- The default attribute of the `WRITER` singleton. -/
def cc0 : ColorCode := ColorCode.new Color.Black Color.Yellow

/-- A concrete all-blank buffer, used for concrete evaluations. -/
def g0 : Grid := fun _ _ => blank cc0

/-- A concrete buffer whose rows are pairwise distinct. -/
def gRows : Grid := fun r _ => ⟨0x41 + r, cc0⟩

/-- A concrete writer whose column has just reached the width. -/
def wFull : Writer :=
  { column_position := BUFFER_WIDTH, color_code := cc0, chars := g0 }

/-- A concrete writer mid-row. -/
def wMid : Writer :=
  { column_position := 5, color_code := cc0, chars := g0 }

/-- The concrete initial state of the singleton over a blank screen. -/
def w0 : Writer := initialWriter g0

/-- A concrete writer over a buffer with pairwise distinct rows. -/
def wRows : Writer :=
  { column_position := 0, color_code := cc0, chars := gRows }

end VgaBuffer

namespace VgaBuffer

/-! ### Loop characterizations -/

/-- The `clear_row` column loop writes `v` at `(row, c)` for every
`c < n` and touches nothing else. -/
theorem clearRowLoop (v : ScreenChar) (row : Nat) (n : Nat) :
    ∀ (g : Grid) (r c : Nat),
      ((List.range n).foldl (fun g col => writeCell g row col v) g) r c
        = if r = row ∧ c < n then v else g r c := by
  induction n with
  | zero => intro g r c; simp
  | succ n ih =>
    intro g r c
    rw [List.range_succ]
    simp only [List.foldl_append, List.foldl_cons, List.foldl_nil]
    simp only [writeCell]
    rw [ih g r c]
    split_ifs <;> first | rfl | (exfalso ; omega)

/-- The inner copy loop of `new_line` (target row `i`, source row
`i + 1`) rewrites row `i` below column `n` from row `i + 1` of the
original grid, and touches nothing else. -/
theorem copyLoop (i : Nat) (n : Nat) :
    ∀ (g : Grid) (r c : Nat),
      ((List.range n).foldl
        (fun g' col => writeCell g' i col (g' (i + 1) col)) g) r c
        = if r = i ∧ c < n then g (i + 1) c else g r c := by
  induction n with
  | zero => intro g r c; simp
  | succ n ih =>
    intro g r c
    rw [List.range_succ]
    simp only [List.foldl_append, List.foldl_cons, List.foldl_nil]
    simp only [writeCell]
    rw [ih g (i + 1) n, ih g r c]
    have hne : ¬ (i + 1 = i ∧ n < n) := by omega
    rw [if_neg hne]
    by_cases hc : r = i ∧ c = n
    · obtain ⟨rfl, rfl⟩ := hc
      rw [if_pos ⟨rfl, rfl⟩, if_pos ⟨rfl, Nat.lt_succ_self _⟩]
    · rw [if_neg hc]
      split_ifs <;> first | rfl | (exfalso ; omega)

/-- The outer row loop of `new_line` shifts rows `1..m` up by one
(below column `BUFFER_WIDTH`) and touches nothing else. -/
theorem shiftLoop (m : Nat) :
    ∀ (g : Grid) (r c : Nat),
      ((List.range m).foldl
        (fun g i =>
          (List.range BUFFER_WIDTH).foldl
            (fun g' col => writeCell g' i col (g' (i + 1) col)) g)
        g) r c
        = if r < m ∧ c < BUFFER_WIDTH then g (r + 1) c else g r c := by
  induction m with
  | zero => intro g r c; simp
  | succ m ih =>
    intro g r c
    rw [List.range_succ]
    simp only [List.foldl_append, List.foldl_cons, List.foldl_nil]
    rw [copyLoop m BUFFER_WIDTH _ r c]
    rw [ih g (m + 1) c, ih g r c]
    have h1 : ¬ (m + 1 < m ∧ c < BUFFER_WIDTH) := by omega
    rw [if_neg h1]
    by_cases hr : r = m ∧ c < BUFFER_WIDTH
    · obtain ⟨rfl, hc⟩ := hr
      rw [if_pos ⟨rfl, hc⟩, if_pos ⟨Nat.lt_succ_self _, hc⟩]
    · rw [if_neg hr]
      split_ifs <;> first | rfl | (exfalso ; omega)

/-- Pointwise description of `new_line`'s effect on the buffer. -/
theorem newLine_chars (w : Writer) (r c : Nat) :
    (w.new_line).chars r c =
      if r = BUFFER_HEIGHT - 1 ∧ c < BUFFER_WIDTH then blank w.color_code
      else if r < BUFFER_HEIGHT - 1 ∧ c < BUFFER_WIDTH then w.chars (r + 1) c
      else w.chars r c := by
  simp only [Writer.new_line, Writer.clear_row]
  rw [clearRowLoop, shiftLoop]

theorem newLine_column (w : Writer) : (w.new_line).column_position = 0 := rfl

theorem newLine_color (w : Writer) : (w.new_line).color_code = w.color_code := rfl

/-! ### `write_byte` and `write_string` characterizations -/

theorem writeByte_newline (w : Writer) : w.write_byte 0x0a = w.new_line := rfl

theorem writeByte_no_wrap (w : Writer) (b : Nat) (hb : b ≠ 0x0a)
    (hcol : w.column_position < BUFFER_WIDTH) :
    w.write_byte b =
      { w with
        chars := writeCell w.chars (BUFFER_HEIGHT - 1) w.column_position ⟨b, w.color_code⟩
        column_position := w.column_position + 1 } := by
  simp [Writer.write_byte, hb, Nat.not_le.mpr hcol]

theorem writeByte_wrap (w : Writer) (b : Nat) (hb : b ≠ 0x0a)
    (hcol : BUFFER_WIDTH ≤ w.column_position) :
    w.write_byte b =
      { w.new_line with
        chars := writeCell (w.new_line).chars (BUFFER_HEIGHT - 1) 0 ⟨b, w.color_code⟩
        column_position := 1 } := by
  simp [Writer.write_byte, hb, hcol, newLine_column, newLine_color]

theorem writeByte_column (w : Writer) (b : Nat) :
    (w.write_byte b).column_position =
      if b = 0x0a then 0
      else if BUFFER_WIDTH ≤ w.column_position then 1
      else w.column_position + 1 := by
  by_cases hb : b = 0x0a
  · rw [if_pos hb, hb, writeByte_newline, newLine_column]
  · rw [if_neg hb]
    by_cases hcol : BUFFER_WIDTH ≤ w.column_position
    · rw [if_pos hcol, writeByte_wrap w b hb hcol]
    · rw [if_neg hcol, writeByte_no_wrap w b hb (Nat.lt_of_not_le hcol)]

theorem writeByte_column_le (w : Writer) (b : Nat) :
    (w.write_byte b).column_position ≤ BUFFER_WIDTH := by
  rw [writeByte_column]
  have : 0 < BUFFER_WIDTH := by norm_num [BUFFER_WIDTH]
  split_ifs <;> omega

theorem writeString_nil (w : Writer) : w.write_string [] = w := rfl

theorem writeString_cons (w : Writer) (b : Nat) (s : List Nat) :
    w.write_string (b :: s) =
      Writer.write_string
        (if (0x20 ≤ b ∧ b ≤ 0x7e) ∨ b = 0x0a then w.write_byte b
         else w.write_byte 0xfe) s := rfl

theorem writeString_append (w : Writer) (s t : List Nat) :
    w.write_string (s ++ t) = (w.write_string s).write_string t := by
  simp [Writer.write_string, List.foldl_append]

theorem writeString_column_le (w : Writer) (s : List Nat)
    (h : w.column_position ≤ BUFFER_WIDTH) :
    (w.write_string s).column_position ≤ BUFFER_WIDTH := by
  induction s generalizing w with
  | nil => exact h
  | cons b s ih =>
    rw [writeString_cons]
    split_ifs <;> exact ih _ (writeByte_column_le _ _)

/-! ### Preservation of the supported-glyph invariant -/

theorem writeCell_OK (g : Grid) (r0 c0 : Nat) (v : ScreenChar)
    (hg : ∀ r c : Nat, supportedGlyph ((g r c).ascii_character))
    (hv : supportedGlyph v.ascii_character) :
    ∀ r c : Nat, supportedGlyph (((writeCell g r0 c0 v) r c).ascii_character) := by
  intro r c
  unfold writeCell
  split_ifs
  · exact hv
  · exact hg r c

theorem gridOK_newLine (w : Writer) (h : GridOK w) : GridOK w.new_line := by
  intro r c
  rw [newLine_chars]
  have hblank : supportedGlyph ((blank w.color_code).ascii_character) := by
    show supportedGlyph 0x20
    decide
  split_ifs
  · exact hblank
  · exact h _ _
  · exact h _ _

theorem gridOK_writeByte (w : Writer) (b : Nat) (h : GridOK w)
    (hb : supportedGlyph b ∨ b = 0x0a) : GridOK (w.write_byte b) := by
  by_cases hnl : b = 0x0a
  · rw [hnl, writeByte_newline]
    exact gridOK_newLine w h
  · have hsb : supportedGlyph b := hb.resolve_right hnl
    by_cases hcol : BUFFER_WIDTH ≤ w.column_position
    · rw [writeByte_wrap w b hnl hcol]
      exact writeCell_OK _ _ _ _ (gridOK_newLine w h) hsb
    · rw [writeByte_no_wrap w b hnl (Nat.lt_of_not_le hcol)]
      exact writeCell_OK _ _ _ _ h hsb

theorem gridOK_writeString (w : Writer) (s : List Nat) (h : GridOK w) :
    GridOK (w.write_string s) := by
  induction s generalizing w with
  | nil => exact h
  | cons b s ih =>
    rw [writeString_cons]
    by_cases hp : (0x20 ≤ b ∧ b ≤ 0x7e) ∨ b = 0x0a
    · rw [if_pos hp]
      refine ih _ (gridOK_writeByte w b h ?_)
      rcases hp with hp | hp
      · exact Or.inl (Or.inl hp)
      · exact Or.inr hp
    · rw [if_neg hp]
      exact ih _ (gridOK_writeByte w 0xfe h (Or.inl (Or.inr rfl)))

/-! ### Runs of printable bytes -/

/-- Writing a run of printable bytes that fits in the current row
advances the column by the length of the run, keeps the attribute,
and deposits exactly those bytes on the last row from the starting
column on, leaving every other cell unchanged. -/
theorem writeString_printable_run (bs : List Nat) :
    ∀ w : Writer,
      (∀ b ∈ bs, 0x20 ≤ b ∧ b ≤ 0x7e) →
      w.column_position + bs.length ≤ BUFFER_WIDTH →
      (w.write_string bs).column_position = w.column_position + bs.length ∧
      (w.write_string bs).color_code = w.color_code ∧
      ∀ r c : Nat, (w.write_string bs).chars r c =
        if r = BUFFER_HEIGHT - 1 ∧ w.column_position ≤ c ∧
            c < w.column_position + bs.length
        then (⟨bs.getD (c - w.column_position) 0, w.color_code⟩ : ScreenChar)
        else w.chars r c := by
  induction bs with
  | nil =>
    intro w _ _
    refine ⟨by simp [writeString_nil], rfl, ?_⟩
    intro r c
    rw [writeString_nil]
    have hno : ¬ (r = BUFFER_HEIGHT - 1 ∧ w.column_position ≤ c ∧
        c < w.column_position + List.length ([] : List Nat)) := by
      simp only [List.length_nil]
      omega
    rw [if_neg hno]
  | cons b bs ih =>
    intro w hbs hlen
    have hb : 0x20 ≤ b ∧ b ≤ 0x7e := hbs b (List.mem_cons_self b bs)
    have hnl : b ≠ 0x0a := by omega
    have hlen' : w.column_position + (bs.length + 1) ≤ BUFFER_WIDTH := by
      simpa [List.length_cons] using hlen
    have hcol : w.column_position < BUFFER_WIDTH := by omega
    rw [writeString_cons, if_pos (Or.inl hb)]
    have hw' := writeByte_no_wrap w b hnl hcol
    have hcol' : (w.write_byte b).column_position = w.column_position + 1 := by
      rw [hw']
    have hcc' : (w.write_byte b).color_code = w.color_code := by
      rw [hw']
    have hchars' : ∀ r c : Nat, (w.write_byte b).chars r c =
        if r = BUFFER_HEIGHT - 1 ∧ c = w.column_position
        then (⟨b, w.color_code⟩ : ScreenChar)
        else w.chars r c := by
      intro r c
      rw [hw']
      rfl
    obtain ⟨ihcol, ihcc, ihchars⟩ :=
      ih (w.write_byte b) (fun x hx => hbs x (List.mem_cons_of_mem b hx))
        (by rw [hcol']; omega)
    simp only [hcol', hcc'] at ihcol ihcc ihchars
    refine ⟨?_, ?_, ?_⟩
    · rw [ihcol]
      simp only [List.length_cons]
      omega
    · rw [ihcc]
    · intro r c
      rw [ihchars r c]
      by_cases h1 : r = BUFFER_HEIGHT - 1 ∧ w.column_position + 1 ≤ c ∧
          c < w.column_position + 1 + bs.length
      · rw [if_pos h1]
        have h2 : r = BUFFER_HEIGHT - 1 ∧ w.column_position ≤ c ∧
            c < w.column_position + (b :: bs).length := by
          simp only [List.length_cons]
          omega
        rw [if_pos h2]
        have hidx : c - w.column_position = (c - (w.column_position + 1)) + 1 := by
          omega
        rw [hidx, List.getD_cons_succ]
      · rw [if_neg h1, hchars' r c]
        by_cases h3 : r = BUFFER_HEIGHT - 1 ∧ c = w.column_position
        · rw [if_pos h3]
          obtain ⟨h3r, rfl⟩ := h3
          have h4 : r = BUFFER_HEIGHT - 1 ∧
              w.column_position ≤ w.column_position ∧
              w.column_position < w.column_position + (b :: bs).length := by
            simp only [List.length_cons]
            omega
          rw [if_pos h4, Nat.sub_self, List.getD_cons_zero]
        · rw [if_neg h3]
          have h5 : ¬ (r = BUFFER_HEIGHT - 1 ∧ w.column_position ≤ c ∧
              c < w.column_position + (b :: bs).length) := by
            simp only [List.length_cons]
            omega
          rw [if_neg h5]

/-! ### Iterating `new_line` -/

/-- After `k` applications of `new_line`, each on-grid cell shows the
original row `r + k` if that row existed, and blank otherwise. -/
theorem newLine_iterate (k : Nat) :
    ∀ (w : Writer) (r c : Nat),
      (Writer.new_line^[k] w).chars r c =
        if r < BUFFER_HEIGHT ∧ c < BUFFER_WIDTH then
          (if BUFFER_HEIGHT ≤ r + k then blank w.color_code
           else w.chars (r + k) c)
        else w.chars r c := by
  have hH : BUFFER_HEIGHT - 1 + 1 = BUFFER_HEIGHT := by
    norm_num [BUFFER_HEIGHT]
  induction k with
  | zero =>
    intro w r c
    simp only [Function.iterate_zero, id_eq, Nat.add_zero]
    split_ifs <;> first | rfl | (exfalso ; omega)
  | succ k ih =>
    intro w r c
    rw [Function.iterate_succ_apply, ih (w.new_line) r c]
    simp only [newLine_color, newLine_chars]
    split_ifs <;> first | rfl | (exfalso ; omega)

/-! ### Access traces stay in bounds -/

theorem newLineAccesses_bounds :
    ∀ p ∈ new_line_accesses, p.1 < BUFFER_HEIGHT ∧ p.2 < BUFFER_WIDTH := by
  have hH : 1 ≤ BUFFER_HEIGHT := by norm_num [BUFFER_HEIGHT]
  intro p hp
  unfold new_line_accesses at hp
  rw [List.mem_append] at hp
  rcases hp with hp | hp
  · rw [List.mem_flatMap] at hp
    obtain ⟨i, hi, hp⟩ := hp
    rw [List.mem_range] at hi
    rw [List.mem_flatMap] at hp
    obtain ⟨col, hcol, hp⟩ := hp
    rw [List.mem_range] at hcol
    simp only [List.mem_cons, List.not_mem_nil, or_false] at hp
    rcases hp with rfl | rfl
    · exact ⟨by omega, hcol⟩
    · exact ⟨by omega, hcol⟩
  · rw [List.mem_map] at hp
    obtain ⟨col, hcol, rfl⟩ := hp
    rw [List.mem_range] at hcol
    exact ⟨by omega, hcol⟩

theorem gridOK_wMid : GridOK wMid := by
  intro r c
  show supportedGlyph 0x20
  decide

/-! ### Claims -/

/-- Claim C1, counterexample: the invariant `column < width` claimed
for every public operation is violated on the code: starting from the
singleton's initial state, one `write_string` of 80 printable bytes
leaves `column_position = 80`, which is not `< BUFFER_WIDTH`. -/
theorem claim1_counterexample :
    ¬ (((initialWriter g0).write_string
          (List.replicate BUFFER_WIDTH 0x41)).column_position < BUFFER_WIDTH) := by
  have h := (writeString_printable_run (List.replicate BUFFER_WIDTH 0x41)
    (initialWriter g0)
    (fun x hx => by rw [List.eq_of_mem_replicate hx]; decide)
    (by simp [initialWriter])).1
  rw [h]
  simp [initialWriter]

/-- Claim C1, amended: the column is always in `[0, width]` (it can
momentarily equal the width after the last cell of a row is written):
this holds initially and is preserved by `write_byte`, `write_string`
and `new_line`, with the column reset to 0 by `new_line`. -/
theorem claim1_amended_column_le (g : Grid) :
    (initialWriter g).column_position ≤ BUFFER_WIDTH ∧
    (∀ (w : Writer) (b : Nat), w.column_position ≤ BUFFER_WIDTH →
      (w.write_byte b).column_position ≤ BUFFER_WIDTH) ∧
    (∀ (w : Writer) (s : List Nat), w.column_position ≤ BUFFER_WIDTH →
      (w.write_string s).column_position ≤ BUFFER_WIDTH) ∧
    (∀ w : Writer, (w.new_line).column_position = 0) :=
  ⟨Nat.zero_le _,
   fun w b _ => writeByte_column_le w b,
   fun w s h => writeString_column_le w s h,
   newLine_column⟩

/-- Witness for the amended C1 at concrete inputs. -/
theorem claim1_witness :
    (wMid.write_byte 0x41).column_position ≤ BUFFER_WIDTH ∧
    (wMid.write_string [0x41, 0x0a]).column_position ≤ BUFFER_WIDTH :=
  ⟨(claim1_amended_column_le g0).2.1 wMid 0x41 (by decide),
   (claim1_amended_column_le g0).2.2.1 wMid [0x41, 0x0a] (by decide)⟩

/-- Claim C2: `write_byte(b)` calls `new_line` when `b` is the newline
byte; otherwise, when the column has reached the width it first runs
the same `new_line` (implicit wrap), then writes the cell
`{character = b, attribute = current attribute}` at (last row, current
column) and advances the column by 1. -/
theorem claim2_write_byte_spec (w : Writer) (b : Nat) :
    (b = 0x0a → w.write_byte b = w.new_line) ∧
    (b ≠ 0x0a → w.column_position < BUFFER_WIDTH →
      w.write_byte b =
        { w with
          chars := (writeCell w.chars (BUFFER_HEIGHT - 1) w.column_position
            ⟨b, w.color_code⟩)
          column_position := w.column_position + 1 }) ∧
    (b ≠ 0x0a → BUFFER_WIDTH ≤ w.column_position →
      w.write_byte b =
        { w.new_line with
          chars := (writeCell (w.new_line).chars (BUFFER_HEIGHT - 1)
            (w.new_line).column_position ⟨b, w.color_code⟩)
          column_position := (w.new_line).column_position + 1 }) := by
  refine ⟨?_, ?_, ?_⟩
  · intro hb
    rw [hb, writeByte_newline]
  · exact writeByte_no_wrap w b
  · intro hb hcol
    rw [writeByte_wrap w b hb hcol, newLine_column]

/-- Witness for C2 at a concrete mid-row state and printable byte. -/
theorem claim2_witness :
    wMid.write_byte 0x41 =
      { wMid with
        chars := (writeCell wMid.chars (BUFFER_HEIGHT - 1) wMid.column_position
          ⟨0x41, wMid.color_code⟩)
        column_position := wMid.column_position + 1 } :=
  (claim2_write_byte_spec wMid 0x41).2.1 (by decide) (by decide)

/-- Claim C4: `new_line` copies every cell of row `r` to row `r - 1`
for `r` from 1 to height-1 (so each on-grid cell below the last row
shows the old contents of the row beneath it, and row 0's prior
contents are discarded), sets every cell of the last row to
`{character = blank, attribute = current attribute}`, and resets the
column to 0. -/
theorem claim4_new_line_spec (w : Writer) :
    (∀ r c : Nat,
      (w.new_line).chars r c =
        if r = BUFFER_HEIGHT - 1 ∧ c < BUFFER_WIDTH then blank w.color_code
        else if r < BUFFER_HEIGHT - 1 ∧ c < BUFFER_WIDTH then w.chars (r + 1) c
        else w.chars r c) ∧
    (w.new_line).column_position = 0 :=
  ⟨fun r c => newLine_chars w r c, newLine_column w⟩

/-- Claim C3: `write_string` processes bytes in order, forwarding each
byte that is printable ASCII or the newline to `write_byte` unchanged
and every other byte as the placeholder `0xfe` (so a single
unsupported byte mutates the state exactly as writing `0xfe` would),
and consequently every cell of the buffer only ever holds a supported
glyph. -/
theorem claim3_write_string_spec :
    (∀ (w : Writer) (s : List Nat),
      w.write_string s = s.foldl (fun w b => w.write_byte (sanitize b)) w) ∧
    (∀ (w : Writer) (b : Nat),
      ¬ ((0x20 ≤ b ∧ b ≤ 0x7e) ∨ b = 0x0a) →
      w.write_string [b] = w.write_byte 0xfe) ∧
    (∀ (w : Writer) (s : List Nat), GridOK w → GridOK (w.write_string s)) := by
  refine ⟨?_, ?_, fun w s h => gridOK_writeString w s h⟩
  · intro w s
    have hfun : (fun (w : Writer) (byte : Nat) =>
        if (0x20 ≤ byte ∧ byte ≤ 0x7e) ∨ byte = 0x0a then w.write_byte byte
        else w.write_byte 0xfe)
        = fun (w : Writer) (b : Nat) => w.write_byte (sanitize b) := by
      funext w b
      unfold sanitize
      split_ifs <;> rfl
    rw [Writer.write_string, hfun]
  · intro w b hb
    rw [writeString_cons, if_neg hb, writeString_nil]

/-- Witness for C3: the unsupported byte 0x01 mutates the state
exactly as the placeholder, and the glyph invariant survives a
concrete write. -/
theorem claim3_witness :
    wMid.write_string [0x01] = wMid.write_byte 0xfe ∧
    GridOK (wMid.write_string [0x01, 0x0a]) :=
  ⟨claim3_write_string_spec.2.1 wMid 0x01 (by decide),
   claim3_write_string_spec.2.2 wMid [0x01, 0x0a] gridOK_wMid⟩

/-- Claim C5: from a state at column 0, writing width printable bytes
and then one more printable byte scrolls exactly once: rows 1 to
height-1 of the pre-scroll screen move up one row (row 0's prior
contents are discarded, the row of freshly written bytes lands on the
second-to-last row), and the last row holds only the newest byte at
column 0 with blanks elsewhere, the column ending at 1. -/
theorem claim5_scroll_after_full_row (w : Writer) (bs : List Nat) (b : Nat)
    (hcol : w.column_position = 0)
    (hlen : bs.length = BUFFER_WIDTH)
    (hbs : ∀ x ∈ bs, 0x20 ≤ x ∧ x ≤ 0x7e)
    (hb1 : 0x20 ≤ b) (hb2 : b ≤ 0x7e) :
    (w.write_string (bs ++ [b])).column_position = 1 ∧
    (∀ r c : Nat, r < BUFFER_HEIGHT - 2 → c < BUFFER_WIDTH →
      (w.write_string (bs ++ [b])).chars r c = w.chars (r + 1) c) ∧
    (∀ c : Nat, c < BUFFER_WIDTH →
      (w.write_string (bs ++ [b])).chars (BUFFER_HEIGHT - 2) c =
        ⟨bs.getD c 0, w.color_code⟩) ∧
    (w.write_string (bs ++ [b])).chars (BUFFER_HEIGHT - 1) 0 =
      (⟨b, w.color_code⟩ : ScreenChar) ∧
    (∀ c : Nat, 0 < c → c < BUFFER_WIDTH →
      (w.write_string (bs ++ [b])).chars (BUFFER_HEIGHT - 1) c =
        blank w.color_code) := by
  have hB : 2 ≤ BUFFER_HEIGHT := by norm_num [BUFFER_HEIGHT]
  have hW : 0 < BUFFER_WIDTH := by norm_num [BUFFER_WIDTH]
  obtain ⟨rcol, rcc, rchars⟩ := writeString_printable_run bs w hbs (by omega)
  simp only [hcol, Nat.zero_add, Nat.sub_zero, hlen] at rcol rchars
  have hsplit : w.write_string (bs ++ [b])
      = (w.write_string bs).write_byte b := by
    rw [writeString_append, writeString_cons, if_pos (Or.inl ⟨hb1, hb2⟩),
      writeString_nil]
  have hnl : b ≠ 0x0a := by omega
  have hge : BUFFER_WIDTH ≤ (w.write_string bs).column_position := by
    rw [rcol]
  rw [hsplit, writeByte_wrap (w.write_string bs) b hnl hge]
  have hLchars : ∀ r c : Nat,
      (writeCell ((w.write_string bs).new_line).chars (BUFFER_HEIGHT - 1) 0
        ⟨b, (w.write_string bs).color_code⟩) r c
      = if r = BUFFER_HEIGHT - 1 ∧ c = 0 then (⟨b, w.color_code⟩ : ScreenChar)
        else ((w.write_string bs).new_line).chars r c := by
    intro r c
    unfold writeCell
    rw [rcc]
  refine ⟨rfl, ?_, ?_, ?_, ?_⟩
  · intro r c hr hc
    show (writeCell ((w.write_string bs).new_line).chars (BUFFER_HEIGHT - 1) 0
      ⟨b, (w.write_string bs).color_code⟩) r c = w.chars (r + 1) c
    rw [hLchars r c, if_neg (by omega : ¬ (r = BUFFER_HEIGHT - 1 ∧ c = 0))]
    rw [newLine_chars, if_neg (by omega), if_pos ⟨by omega, hc⟩]
    rw [rchars (r + 1) c, if_neg (by omega)]
  · intro c hc
    show (writeCell ((w.write_string bs).new_line).chars (BUFFER_HEIGHT - 1) 0
      ⟨b, (w.write_string bs).color_code⟩) (BUFFER_HEIGHT - 2) c
      = ⟨bs.getD c 0, w.color_code⟩
    rw [hLchars _ c, if_neg (by omega)]
    rw [newLine_chars, if_neg (by omega), if_pos ⟨by omega, hc⟩]
    have h21 : BUFFER_HEIGHT - 2 + 1 = BUFFER_HEIGHT - 1 := by omega
    rw [h21, rchars _ c, if_pos ⟨rfl, Nat.zero_le c, hc⟩]
  · show (writeCell ((w.write_string bs).new_line).chars (BUFFER_HEIGHT - 1) 0
      ⟨b, (w.write_string bs).color_code⟩) (BUFFER_HEIGHT - 1) 0
      = (⟨b, w.color_code⟩ : ScreenChar)
    rw [hLchars _ 0, if_pos ⟨rfl, rfl⟩]
  · intro c hc0 hc
    show (writeCell ((w.write_string bs).new_line).chars (BUFFER_HEIGHT - 1) 0
      ⟨b, (w.write_string bs).color_code⟩) (BUFFER_HEIGHT - 1) c
      = blank w.color_code
    rw [hLchars _ c, if_neg (by omega)]
    rw [newLine_chars, if_pos ⟨rfl, hc⟩, rcc]

/-- Claim C6: for a printable ASCII byte and a state whose column is
still inside the row, `write_byte` advances the column by exactly 1
and leaves every row other than the written (last) one unchanged. -/
theorem claim6_printable_frame (w : Writer) (b : Nat)
    (hb1 : 0x20 ≤ b) (hb2 : b ≤ 0x7e)
    (hcol : w.column_position < BUFFER_WIDTH) :
    (w.write_byte b).column_position = w.column_position + 1 ∧
    ∀ r c : Nat, r ≠ BUFFER_HEIGHT - 1 → (w.write_byte b).chars r c = w.chars r c := by
  have hnl : b ≠ 0x0a := by omega
  rw [writeByte_no_wrap w b hnl hcol]
  refine ⟨rfl, ?_⟩
  intro r c hr
  show (writeCell w.chars (BUFFER_HEIGHT - 1) w.column_position
    ⟨b, w.color_code⟩) r c = w.chars r c
  simp only [writeCell]
  exact if_neg (fun h => hr h.1)

/-- Witness for C6 at a concrete mid-row state and printable byte. -/
theorem claim6_witness :
    (wMid.write_byte 0x41).column_position = wMid.column_position + 1 ∧
    ∀ r c : Nat, r ≠ BUFFER_HEIGHT - 1 →
      (wMid.write_byte 0x41).chars r c = wMid.chars r c :=
  claim6_printable_frame wMid 0x41 (by decide) (by decide) (by decide)

/-- Claim C7: `new_line` always resets the column to 0, it is not
idempotent on the grid contents (a state exists where a second call
changes the grid again), and iterating it height times blanks every
cell of the grid. -/
theorem claim7_new_line_algebra :
    (∀ w : Writer, (w.new_line).column_position = 0) ∧
    (∃ w : Writer, (w.new_line.new_line).chars ≠ (w.new_line).chars) ∧
    (∀ (w : Writer) (r c : Nat),
      (Writer.new_line^[BUFFER_HEIGHT] w).chars r c =
        if r < BUFFER_HEIGHT ∧ c < BUFFER_WIDTH then blank w.color_code
        else w.chars r c) := by
  refine ⟨newLine_column, ⟨wRows, fun h => ?_⟩, ?_⟩
  · have h00 := congrFun (congrFun h 0) 0
    have hA : (wRows.new_line).chars 0 0 = wRows.chars 1 0 := by
      rw [newLine_chars]
      norm_num [BUFFER_HEIGHT, BUFFER_WIDTH]
    have hB : (wRows.new_line.new_line).chars 0 0 = wRows.chars 2 0 := by
      rw [newLine_chars, newLine_chars]
      norm_num [BUFFER_HEIGHT, BUFFER_WIDTH]
    rw [hA, hB] at h00
    exact absurd h00 (by decide)
  · intro w r c
    rw [newLine_iterate BUFFER_HEIGHT w r c]
    by_cases hrc : r < BUFFER_HEIGHT ∧ c < BUFFER_WIDTH
    · rw [if_pos hrc, if_pos hrc,
        if_pos (by omega : BUFFER_HEIGHT ≤ r + BUFFER_HEIGHT)]
    · rw [if_neg hrc, if_neg hrc]

/-- Witness for C5 on a blank screen: 80 copies of the byte 0x48
followed by the byte 0x42. -/
theorem claim5_witness :
    (w0.write_string (List.replicate BUFFER_WIDTH 0x48 ++ [0x42])).column_position
      = 1 ∧
    (∀ r c : Nat, r < BUFFER_HEIGHT - 2 → c < BUFFER_WIDTH →
      (w0.write_string (List.replicate BUFFER_WIDTH 0x48 ++ [0x42])).chars r c
        = w0.chars (r + 1) c) ∧
    (∀ c : Nat, c < BUFFER_WIDTH →
      (w0.write_string (List.replicate BUFFER_WIDTH 0x48 ++ [0x42])).chars
          (BUFFER_HEIGHT - 2) c
        = ⟨(List.replicate BUFFER_WIDTH 0x48).getD c 0, w0.color_code⟩) ∧
    (w0.write_string (List.replicate BUFFER_WIDTH 0x48 ++ [0x42])).chars
        (BUFFER_HEIGHT - 1) 0
      = (⟨0x42, w0.color_code⟩ : ScreenChar) ∧
    (∀ c : Nat, 0 < c → c < BUFFER_WIDTH →
      (w0.write_string (List.replicate BUFFER_WIDTH 0x48 ++ [0x42])).chars
          (BUFFER_HEIGHT - 1) c
        = blank w0.color_code) :=
  claim5_scroll_after_full_row w0 (List.replicate BUFFER_WIDTH 0x48) 0x42
    rfl (by simp) (fun x hx => by rw [List.eq_of_mem_replicate hx]; decide)
    (by decide) (by decide)

/-- Claim C8: `write_byte` of a non-newline byte in a state whose
column already equals the width performs only in-bounds accesses: the
wrap runs first, every access of the scroll is inside the 25 by 80
grid, and the character write lands at the last row, column 0. -/
theorem claim8_full_column_in_bounds (w : Writer) (b : Nat)
    (hb : b ≠ 0x0a) (hcol : w.column_position = BUFFER_WIDTH) :
    (∀ p ∈ write_byte_accesses w b,
      p.1 < BUFFER_HEIGHT ∧ p.2 < BUFFER_WIDTH) ∧
    write_byte_accesses w b
      = new_line_accesses ++ [(BUFFER_HEIGHT - 1, 0)] := by
  have hge : w.column_position ≥ BUFFER_WIDTH := ge_of_eq hcol
  have heq : write_byte_accesses w b
      = new_line_accesses ++ [(BUFFER_HEIGHT - 1, 0)] := by
    unfold write_byte_accesses
    rw [if_neg hb]
    simp only [if_pos hge, newLine_column]
  refine ⟨?_, heq⟩
  intro p hp
  rw [heq, List.mem_append] at hp
  rcases hp with hp | hp
  · exact newLineAccesses_bounds p hp
  · rw [List.mem_singleton] at hp
    subst hp
    exact ⟨by decide, by decide⟩

/-- Witness for C8 at a concrete full-column state. -/
theorem claim8_witness :
    (∀ p ∈ write_byte_accesses wFull 0x41,
      p.1 < BUFFER_HEIGHT ∧ p.2 < BUFFER_WIDTH) ∧
    write_byte_accesses wFull 0x41
      = new_line_accesses ++ [(BUFFER_HEIGHT - 1, 0)] :=
  claim8_full_column_in_bounds wFull 0x41 (by decide) (by decide)

/-- Claim C9: the attribute byte is the background nibble shifted
left by four, or-ed with the foreground nibble, and the sixteen color
identities are exactly 0 through 15 in the documented order. -/
theorem claim9_color_code_spec :
    (∀ background foreground : Color,
      (ColorCode.new background foreground).val =
        ((background.toU8 <<< 4) ||| foreground.toU8)) ∧
    (Color.toU8 .Black = 0 ∧ Color.toU8 .Blue = 1 ∧ Color.toU8 .Green = 2 ∧
     Color.toU8 .Cyan = 3 ∧ Color.toU8 .Red = 4 ∧ Color.toU8 .Magenta = 5 ∧
     Color.toU8 .Brown = 6 ∧ Color.toU8 .LightGray = 7 ∧
     Color.toU8 .DarkGray = 8 ∧ Color.toU8 .LightBlue = 9 ∧
     Color.toU8 .LightGreen = 10 ∧ Color.toU8 .LightCyan = 11 ∧
     Color.toU8 .LightRed = 12 ∧ Color.toU8 .Pink = 13 ∧
     Color.toU8 .Yellow = 14 ∧ Color.toU8 .White = 15) := by
  constructor
  · intro bg fg
    cases bg <;> cases fg <;> rfl
  · exact ⟨rfl, rfl, rfl, rfl, rfl, rfl, rfl, rfl, rfl, rfl, rfl, rfl, rfl,
      rfl, rfl, rfl⟩

/-- Claim C10: from the singleton's initial state, any sequence of
public operations leaves the column at most the width, and the bound
is attained: a sequence exists after which the column equals 80. -/
theorem claim10_column_le_width :
    (∀ (g : Grid) (ops : List Op),
      (execOps (initialWriter g) ops).column_position ≤ BUFFER_WIDTH) ∧
    (∀ g : Grid, ∃ ops : List Op,
      (execOps (initialWriter g) ops).column_position = BUFFER_WIDTH) := by
  have hstep : ∀ (ops : List Op) (w : Writer),
      w.column_position ≤ BUFFER_WIDTH →
      (execOps w ops).column_position ≤ BUFFER_WIDTH := by
    intro ops
    induction ops with
    | nil => exact fun w h => h
    | cons op ops ih =>
      intro w h
      have hone : (applyOp w op).column_position ≤ BUFFER_WIDTH := by
        cases op with
        | writeByte b => exact writeByte_column_le w b
        | writeString s => exact writeString_column_le w s h
        | newLine =>
          show (w.new_line).column_position ≤ BUFFER_WIDTH
          rw [newLine_column]
          exact Nat.zero_le _
      exact ih (applyOp w op) hone
  constructor
  · intro g ops
    exact hstep ops (initialWriter g) (Nat.zero_le _)
  · intro g
    refine ⟨[Op.writeString (List.replicate BUFFER_WIDTH 0x41)], ?_⟩
    have hrw : execOps (initialWriter g)
        [Op.writeString (List.replicate BUFFER_WIDTH 0x41)]
        = (initialWriter g).write_string (List.replicate BUFFER_WIDTH 0x41) := by
      simp only [execOps, List.foldl_cons, List.foldl_nil, applyOp]
    have h := (writeString_printable_run (List.replicate BUFFER_WIDTH 0x41)
      (initialWriter g)
      (fun x hx => by rw [List.eq_of_mem_replicate hx]; decide)
      (by simp [initialWriter])).1
    rw [hrw, h]
    simp [initialWriter]

end VgaBuffer
